import Mathlib

/-!
Verification development for the goini library (src/goini.go), a small
INI-style configuration reader.  The Go code is shallowly embedded below:

* Go strings / byte buffers are modelled as Lean `String` and, internally,
  as `List Char` (the library treats the buffer as text; non-UTF-8 byte
  sequences are outside the model).
* Go maps (`map[string]KeyValue`, `map[string]string`) are modelled as
  association lists with overwrite-on-insert semantics (`setA`); lookup
  (`lookupA`) returns the first binding.  The Go zero-value behaviour of
  reading a missing map entry (empty string / absent) is modelled with
  `Option` plus a default at the use site, exactly mirroring the source.
* `bufio.Scanner` line splitting (`ScanLines`) is modelled by `goLines`:
  lines are separated by a line feed, one trailing carriage return is
  dropped from each line, a final line without a newline is still produced,
  and empty input produces no lines.  The scanner's 64 KiB maximum token
  size is not modelled.
* `strings.TrimSpace` is modelled by `goTrimL` using the Unicode
  White_Space set (`goIsSpace`), and `strings.Split` by `goSplitL`
  (fuel-based recursion so that the kernel can evaluate it).
-/

namespace Goini

set_option maxRecDepth 200000

/-- Character test used by the model of strings.TrimSpace: the Unicode
White_Space property, which is what Go's unicode.IsSpace checks. -/
def goIsSpace (c : Char) : Bool :=
  let n := c.toNat
  decide ((9 ≤ n ∧ n ≤ 13) ∨ n = 32 ∨ n = 0x85 ∨ n = 0xA0 ∨ n = 0x1680 ∨
    (0x2000 ≤ n ∧ n ≤ 0x200A) ∨ n = 0x2028 ∨ n = 0x2029 ∨ n = 0x202F ∨
    n = 0x205F ∨ n = 0x3000)

/-- Model of strings.TrimSpace on a character list: remove leading and
trailing white space. -/
def goTrimL (l : List Char) : List Char :=
  ((l.dropWhile goIsSpace).reverse.dropWhile goIsSpace).reverse

/-- Model of strings.TrimSpace on strings. -/
def goTrimSpace (s : String) : String := ⟨goTrimL s.data⟩

/-- Model of the dropCR helper of bufio.ScanLines: remove one trailing
carriage return. -/
def dropCR (l : List Char) : List Char :=
  if l.getLast? = some '\r' then l.dropLast else l

/-- Worker for `goLines`; `acc` holds the current line reversed. -/
def goLinesAux : List Char → List Char → List String
  | [], acc => if acc.isEmpty then [] else [⟨dropCR acc.reverse⟩]
  | c :: rest, acc =>
    if c = '\n' then ⟨dropCR acc.reverse⟩ :: goLinesAux rest []
    else goLinesAux rest (c :: acc)

/-- Model of reading a buffer line by line with bufio.Scanner and
bufio.ScanLines, as parseLines does. -/
def goLines (s : String) : List String := goLinesAux s.data []

/-- Worker for the model of strings.Split when the separator is non-empty:
`fuel` bounds the recursion (any `fuel ≥ s.length` computes the split). -/
def goSplitAux (sep : List Char) : Nat → List Char → List (List Char)
  | _, [] => [[]]
  | 0, s => [s]
  | fuel + 1, c :: rest =>
    if sep.isPrefixOf (c :: rest) then
      [] :: goSplitAux sep fuel ((c :: rest).drop sep.length)
    else
      match goSplitAux sep fuel rest with
      | [] => [[c]]
      | chunk :: chunks => (c :: chunk) :: chunks

/-- Model of strings.Split on character lists.  An empty separator explodes
the string into single characters (Go splits after each UTF-8 rune). -/
def goSplitL (s sep : List Char) : List (List Char) :=
  if sep = [] then s.map (fun c => [c])
  else goSplitAux sep s.length s

/-- Model of strings.Split on strings. -/
def goSplit (s sep : String) : List String :=
  (goSplitL s.data sep.data).map (fun l => (⟨l⟩ : String))

/-- Association list lookup: first binding for the given name, modelling a
Go map read (`none` for the zero-value case of a missing entry). -/
def lookupA {α : Type} : List (String × α) → String → Option α
  | [], _ => none
  | (n, v) :: rest, s => if n = s then some v else lookupA rest s

/-- Association list update modelling a Go map write: overwrite the
existing binding, or append a new one. -/
def setA {α : Type} : List (String × α) → String → α → List (String × α)
  | [], n, v => [(n, v)]
  | (m, w) :: rest, n, v =>
    if m = n then (n, v) :: rest else (m, w) :: setA rest n v

/-- The value map of one section (KeyValue.Item in the source). -/
abbrev Items := List (String × String)

/-- The Store: section name to key/value map (Ini.sections in the source). -/
abbrev Sections := List (String × Items)

/-- Model of the write `i.sections[currentSection].Item[key] = value`.  In
the source the section always exists when this runs (created at the start
of parseLines or by a header line); a missing section is a no-op here. -/
def setKV (secs : Sections) (sec key val : String) : Sections :=
  match lookupA secs sec with
  | none => secs
  | some m => setA secs sec (setA m key val)

/-- Two-level lookup `i.sections[section].Item[key]` with `none` for the
missing-section / missing-key zero values. -/
def lookupKV (secs : Sections) (sec key : String) : Option String :=
  match lookupA secs sec with
  | none => none
  | some m => lookupA m key

/-- The Ini struct of the source (fileName is declared there but never
written). -/
structure Ini where
  fileName : String
  buffer : String
  sections : Sections
  deriving Repr, DecidableEq

/-- Embedding of the private method Ini.clear: fresh empty sections map and
empty buffer. -/
def clear (i : Ini) : Ini := { i with sections := [], buffer := "" }

/-- Embedding of NewIni: zero-valued struct, then clear. -/
def NewIni : Ini := clear { fileName := "", buffer := "", sections := [] }

/-- Embedding of one iteration of the scanner loop in Ini.parseLines, on an
already trimmed line.  The state is (currentSection, sections). -/
def parseTrimmedStep (st : String × Sections) (l : List Char) :
    String × Sections :=
  match l with
  | [] => st
  | c :: cs =>
    if c = '#' ∨ c = ';' then st
    else if c = '[' then
      if (c :: cs).getLast? = some ']' then
        let name : String := ⟨cs.dropLast⟩
        (name,
          if (lookupA st.2 name).isSome then st.2 else setA st.2 name [])
      else st
    else
      match goSplitL (c :: cs) ['='] with
      | [p0, p1] =>
        (st.1, setKV st.2 st.1 (⟨goTrimL p0⟩ : String) (⟨goTrimL p1⟩ : String))
      | _ => st

/-- One iteration of the scanner loop of Ini.parseLines on a raw line:
trim, then classify (blank/comment, section header, key=value). -/
def parseLineStep (st : String × Sections) (raw : String) :
    String × Sections :=
  parseTrimmedStep st (goTrimL raw.data)

/-- Embedding of Ini.parseLines: create the empty-named section, then fold
the per-line step over the scanner's lines. -/
def parseLines (i : Ini) : Ini :=
  { i with
    sections :=
      ((goLines i.buffer).foldl parseLineStep ("", setA i.sections "" [])).2 }

/-- Embedding of Ini.LoadFromBytes: clear, store the buffer, parse. -/
def LoadFromBytes (i : Ini) (buffer : String) : Ini :=
  parseLines { clear i with buffer := buffer }

/-- Embedding of Ini.LoadFromFile.  The os.ReadFile collaborator is passed
in as its result: `Except.error e` models a failed read (the method returns
the error without touching the struct), `Except.ok buffer` a successful
one.  The returned option is the Go error result (some = non-nil). -/
def LoadFromFile (i : Ini) (readResult : Except String String) :
    Ini × Option String :=
  match readResult with
  | .error e => (i, some e)
  | .ok buffer => (LoadFromBytes i buffer, none)

/-- Initial parse state of parseLines when the sections map was empty
(which is always the case in LoadFromBytes, after clear). -/
def parseInit : String × Sections := ("", setA [] "" [])

/-- Parse result (the Store) of a given list of scanner lines, starting
from the standard initial state. -/
def parseOf (ls : List String) : Sections :=
  (ls.foldl parseLineStep parseInit).2

/-- Parse state just before line `j` is processed. -/
def stateAt (ls : List String) (j : Nat) : String × Sections :=
  (ls.take j).foldl parseLineStep parseInit

/-- Embedding of the private Ini.getString: two map reads with Go
zero-value fallbacks, so a missing section or key yields the empty
string. -/
def getString (i : Ini) (sec key : String) : String :=
  match lookupKV i.sections sec key with
  | none => ""
  | some v => v

/-- Embedding of Ini.KeyExists. -/
def KeyExists (i : Ini) (sec key : String) : Bool :=
  (lookupKV i.sections sec key).isSome

/-- Embedding of Ini.SectionExists. -/
def SectionExists (i : Ini) (sec : String) : Bool :=
  (lookupA i.sections sec).isSome

/-- Embedding of Ini.GetSectionValues.  Go map iteration order is
unspecified; it is modelled as insertion order (the claims below use only
membership). -/
def GetSectionValues (i : Ini) : List String :=
  i.sections.map Prod.fst

/-- Embedding of Ini.GetString: empty resolved string falls back to the
default. -/
def GetString (i : Ini) (sec key dflt : String) : String :=
  let result := getString i sec key
  if result = "" then dflt else result

/-- Go lower(c): set the ASCII lower-case bit. -/
def lowerC (c : Char) : Char := Char.ofNat (c.toNat ||| 0x20)

/-- Digit value accepted by strconv's ParseUint loop ('0'-'9', letters
for higher digit values). -/
def digitValGo (c : Char) : Option Nat :=
  if '0' ≤ c ∧ c ≤ '9' then some (c.toNat - '0'.toNat)
  else if 'a' ≤ lowerC c ∧ lowerC c ≤ 'z' then
    some ((lowerC c).toNat - 'a'.toNat + 10)
  else none

/-- Model of strconv's underscoreOK loop.  `saw` is the marker character
of the Go code: '^' start, '0' digit or base prefix, '_' underscore,
'!' anything else. -/
def underscoreOKLoop (hex : Bool) : List Char → Char → Bool
  | [], saw => decide (saw ≠ '_')
  | c :: rest, saw =>
    if ('0' ≤ c ∧ c ≤ '9') ∨ (hex ∧ 'a' ≤ lowerC c ∧ lowerC c ≤ 'f') then
      underscoreOKLoop hex rest '0'
    else if c = '_' then
      if saw ≠ '0' then false else underscoreOKLoop hex rest '_'
    else if saw = '_' then false
    else underscoreOKLoop hex rest '!'

/-- Model of strconv.underscoreOK: underscores must separate successive
digits, or follow a base prefix and precede a digit. -/
def underscoreOK (s : List Char) : Bool :=
  let body :=
    match s with
    | c :: r => if c = '-' ∨ c = '+' then r else c :: r
    | [] => []
  match body with
  | '0' :: c2 :: rest =>
    if lowerC c2 = 'b' ∨ lowerC c2 = 'o' ∨ lowerC c2 = 'x' then
      underscoreOKLoop (lowerC c2 = 'x') rest '0'
    else underscoreOKLoop false ('0' :: c2 :: rest) '^'
  | other => underscoreOKLoop false other '^'

/-- Digit-accumulation loop of strconv.ParseUint with base argument 0
(so underscores are skipped here and checked afterwards).  Returns the
exact accumulated value; range checking is done by the callers, which is
extensionally the behaviour of Go's in-loop cutoff checks given that only
error-versus-value is observed. -/
def parseDigitsBase0 (base : Nat) : List Char → Nat → Option Nat
  | [], n => some n
  | c :: rest, n =>
    if c = '_' then parseDigitsBase0 base rest n
    else
      match digitValGo c with
      | none => none
      | some d =>
        if base ≤ d then none else parseDigitsBase0 base rest (n * base + d)

/-- Model of strconv.ParseUint with base 0 and without the bit-size range
check: detect the 0b/0o/0x/legacy-0 base prefix, accumulate digits, and
validate underscore placement. -/
def goParseUintBase0 (s : List Char) : Option Nat :=
  match s with
  | [] => none
  | _ =>
    let p : Nat × List Char :=
      match s with
      | '0' :: c2 :: c3 :: rest =>
        if lowerC c2 = 'b' then (2, c3 :: rest)
        else if lowerC c2 = 'o' then (8, c3 :: rest)
        else if lowerC c2 = 'x' then (16, c3 :: rest)
        else (8, c2 :: c3 :: rest)
      | '0' :: rest => (8, rest)
      | other => (10, other)
    match parseDigitsBase0 p.1 p.2 0 with
    | none => none
    | some n =>
      if p.2.contains '_' && !(underscoreOK s) then none else some n

/-- Signed 32-bit range acceptance of strconv.ParseInt: the unsigned body
value, negated when a minus sign was seen, must lie in the int32 range,
otherwise the range error is reported (as `none`). -/
def int32Range (neg : Bool) (u : Nat) : Option Int :=
  if neg then (if 2 ^ 31 < u then none else some (-(u : Int)))
  else (if 2 ^ 31 ≤ u then none else some (u : Int))

/-- Body of strconv.ParseInt after the sign has been split off: parse the
unsigned part, then apply the signed 32-bit range check. -/
def goParseIntFinish (p : Bool × List Char) : Option Int :=
  match goParseUintBase0 p.2 with
  | none => none
  | some u => int32Range p.1 u

/-- Model of strconv.ParseInt(s, 0, 32): optional sign, unsigned body,
then the signed 32-bit range check (values past the uint32 range of the
inner ParseUint also fall to `none` through this check). -/
def goParseInt (s : String) : Option Int :=
  match s.data with
  | [] => none
  | c :: rest =>
    goParseIntFinish
      (if c = '+' then (false, rest)
        else if c = '-' then (true, rest)
        else (false, c :: rest))

/-- Model of strconv.ParseUint(s, 0, 32): unsigned body with the 32-bit
range check. -/
def goParseUint32 (s : String) : Option Nat :=
  match goParseUintBase0 s.data with
  | none => none
  | some u => if 2 ^ 32 - 1 < u then none else some u

/-- Embedding of Ini.GetInt (strconv.ParseInt(strValue, 0, 32); on error
return the default). -/
def GetInt (i : Ini) (sec key : String) (dflt : Int) : Int :=
  match goParseInt (getString i sec key) with
  | none => dflt
  | some v => v

/-- Embedding of Ini.GetUint (strconv.ParseUint(strValue, 0, 32); on error
return the default). -/
def GetUint (i : Ini) (sec key : String) (dflt : Nat) : Nat :=
  match goParseUint32 (getString i sec key) with
  | none => dflt
  | some v => v

/-- Model of strconv.ParseBool: the exact literal set accepted by Go. -/
def goParseBool (s : String) : Option Bool :=
  if s = "1" ∨ s = "t" ∨ s = "T" ∨ s = "true" ∨ s = "TRUE" ∨ s = "True" then
    some true
  else if s = "0" ∨ s = "f" ∨ s = "F" ∨ s = "false" ∨ s = "FALSE" ∨
      s = "False" then
    some false
  else none

/-- Embedding of Ini.GetBool. -/
def GetBool (i : Ini) (sec key : String) (dflt : Bool) : Bool :=
  match goParseBool (getString i sec key) with
  | none => dflt
  | some v => v

/-- Integer-digit scanner for the decimal-literal model: accumulate the
value, count the digits consumed, return the rest. -/
def takeDigits : List Char → Nat → Nat → Nat × Nat × List Char
  | [], m, cnt => (m, cnt, [])
  | c :: rest, m, cnt =>
    if '0' ≤ c ∧ c ≤ '9' then
      takeDigits rest (m * 10 + (c.toNat - '0'.toNat)) (cnt + 1)
    else (m, cnt, c :: rest)

/-- Decimal literal as parsed by the decimal path of strconv.ParseFloat:
sign, digit value of the mantissa, and net decimal exponent (written
exponent minus number of fraction digits).  Its mathematical value is
`DecLit.toRat`. -/
structure DecLit where
  neg : Bool
  mant : Nat
  exp : Int
  deriving Repr, DecidableEq

/-- Exact rational value of a parsed decimal literal. -/
def DecLit.toRat (d : DecLit) : ℚ :=
  let mag : ℚ :=
    if 0 ≤ d.exp then (d.mant : ℚ) * 10 ^ d.exp.toNat
    else (d.mant : ℚ) / 10 ^ d.exp.natAbs
  if d.neg then -mag else mag

/-- Parse of a plain decimal/scientific literal, modelling the decimal
path of strconv.ParseFloat: optional sign, digits with at most one dot
(at least one digit), optional e/E exponent with optional sign and at
least one digit, whole string consumed.  Go's hexadecimal floats,
infinity/NaN literals and digit-separating underscores are not modelled
(they yield `none` here). -/
def parseDecimalLit (s : String) : Option DecLit :=
  let p : Bool × List Char :=
    match s.data with
    | '+' :: r => (false, r)
    | '-' :: r => (true, r)
    | other => (false, other)
  let ipart := takeDigits p.2 0 0
  let f : Nat × Nat × Nat × List Char :=
    match ipart.2.2 with
    | '.' :: r =>
      let fpart := takeDigits r ipart.1 0
      (fpart.1, ipart.2.1 + fpart.2.1, fpart.2.1, fpart.2.2)
    | other => (ipart.1, ipart.2.1, 0, other)
  if f.2.1 = 0 then none
  else
    let e : Option (Int × List Char) :=
      match f.2.2.2 with
      | c :: r =>
        if c = 'e' ∨ c = 'E' then
          let q : Bool × List Char :=
            match r with
            | '+' :: r2 => (false, r2)
            | '-' :: r2 => (true, r2)
            | other2 => (false, other2)
          let epart := takeDigits q.2 0 0
          if epart.2.1 = 0 then none
          else
            some (if q.1 then -(epart.1 : Int) else (epart.1 : Int), epart.2.2)
        else some (0, c :: r)
      | [] => some (0, [])
    match e with
    | none => none
    | some (ev, rest) =>
      if rest = [] then some ⟨p.1, f.1, ev - (f.2.2.1 : Int)⟩ else none

/-- Decides whether `bound ≤ |value of d|`, by clearing the power of ten
(the mantissa is non-negative, so only magnitudes are compared). -/
def decAtLeast (d : DecLit) (bound : Nat) : Bool :=
  if 0 ≤ d.exp then decide (bound ≤ d.mant * 10 ^ d.exp.toNat)
  else decide (bound * 10 ^ d.exp.natAbs ≤ d.mant)

/-- Smallest magnitude at which rounding a decimal value to float32
overflows to infinity (max finite float32 plus half an ulp; that tie
rounds to even, that is to infinity). -/
def f32OverflowBound : Nat := (2 ^ 25 - 1) * 2 ^ 103

/-- Smallest magnitude at which rounding to float64 overflows. -/
def f64OverflowBound : Nat := (2 ^ 54 - 1) * 2 ^ 970

/-- Model of strconv.ParseFloat(s, bitSize) on the decimal literals
covered by `parseDecimalLit`: any bitSize other than 32 selects the
64-bit parse (this is the behaviour of strconv's parseFloatPrefix, which
tests `bitSize == 32` and otherwise runs atof64).  Out-of-range values
carry ErrRange in Go, which callers observe as a failure, hence `none`.
Rounding of in-range values to binary is not modelled: the exact decimal
value is kept. -/
def goParseFloat (s : String) (bitSize : Nat) : Option DecLit :=
  match parseDecimalLit s with
  | none => none
  | some d =>
    if bitSize = 32 then
      if decAtLeast d f32OverflowBound then none else some d
    else
      if decAtLeast d f64OverflowBound then none else some d

/-- Embedding of Ini.GetFloat.  The source passes bitSize 10 to
strconv.ParseFloat, reproduced literally here; the final float32
narrowing of the Go return statement is not modelled (the exact parsed
value is returned), which does not affect whether the default is used. -/
def GetFloat (i : Ini) (sec key : String) (dflt : ℚ) : ℚ :=
  match goParseFloat (getString i sec key) 10 with
  | none => dflt
  | some d => d.toRat

/-- Loop of Ini.GetStringSlice replacing empty elements by the default. -/
def setDefaults (dflt : String) : List String → List String
  | [] => []
  | x :: xs => (if x = "" then dflt else x) :: setDefaults dflt xs

/-- Embedding of Ini.GetStringSlice: split the resolved string on the
separator; with an empty separator or an empty split result return the
split unchanged, otherwise replace empty elements by the default. -/
def GetStringSlice (i : Ini) (sec key dflt sep : String) : List String :=
  let result := goSplit (getString i sec key) sep
  if sep = "" ∨ result.length = 0 then result
  else setDefaults dflt result

/-- Classification of an already trimmed line as a valid key=value
assignment: non-blank, not a comment, not bracket-opened, and splitting on
the equals sign yields exactly two parts (exactly one equals sign). -/
def isAssignL (l : List Char) : Bool :=
  match l with
  | [] => false
  | c :: cs =>
    if c = '#' ∨ c = ';' ∨ c = '[' then false
    else decide ((goSplitL (c :: cs) ['=']).length = 2)

/-- Trimmed key of a trimmed assignment line. -/
def assignKeyL (l : List Char) : String :=
  ⟨goTrimL ((goSplitL l ['=']).headD [])⟩

/-- Trimmed value of a trimmed assignment line. -/
def assignValL (l : List Char) : String :=
  ⟨goTrimL ((goSplitL l ['=']).getD 1 [])⟩

/-- Classification of a raw line as a valid key=value assignment line
(after whitespace trimming, as the parser does). -/
def isAssignLine (raw : String) : Bool := isAssignL (goTrimL raw.data)

/-- Trimmed key of a raw assignment line. -/
def assignKey (raw : String) : String := assignKeyL (goTrimL raw.data)

/-- Trimmed value of a raw assignment line. -/
def assignVal (raw : String) : String := assignValL (goTrimL raw.data)

/-- Whether processing the raw line in state `st` writes a value to
section S at key k: the current section is S and the line is a valid
assignment whose trimmed key is k. -/
def assignsTo (st : String × Sections) (raw S k : String) : Bool :=
  decide (st.1 = S) && isAssignLine raw && decide (assignKey raw = k)

/-- True when no line of `ls`, processed from state `st` onwards, assigns
a value to section S at key k. -/
def noLaterAssign :
    (String × Sections) → List String → String → String → Bool
  | _, [], _, _ => true
  | st, l :: ls, S, k =>
    !(assignsTo st l S k) && noLaterAssign (parseLineStep st l) ls S k

/-- Malformed key=value candidate line, as in the claim about skipped
lines: after trimming it is non-blank, no comment, not bracket-opened,
and its number of equals signs is zero or more than one. -/
def malformedKV (raw : String) : Bool :=
  match goTrimL raw.data with
  | [] => false
  | c :: cs =>
    if c = '#' ∨ c = ';' ∨ c = '[' then false
    else decide ((c :: cs).count '=' ≠ 1)

/-- Classification of an already trimmed line as a well-formed section
header (starts with the opening and ends with the closing bracket). -/
def isHeaderL (l : List Char) : Bool :=
  match l with
  | [] => false
  | c :: cs => decide (c = '[') && decide ((c :: cs).getLast? = some ']')

/-- Section name of a trimmed well-formed header line (the characters
between the brackets, untrimmed). -/
def headerNameL : List Char → String
  | [] => ""
  | _ :: cs => ⟨cs.dropLast⟩

/-- Classification of a raw line as a well-formed section header. -/
def isHeaderLine (raw : String) : Bool := isHeaderL (goTrimL raw.data)

/-- Section name of a raw well-formed header line. -/
def headerName (raw : String) : String := headerNameL (goTrimL raw.data)

/-!  Lemmas about the association-list model of Go maps.  -/

/-- Lookup after an overwrite-or-append update. -/
theorem lookupA_setA {α : Type} (xs : List (String × α)) (n : String) (v : α)
    (s : String) :
    lookupA (setA xs n v) s = if n = s then some v else lookupA xs s := by
  induction xs with
  | nil => simp [setA, lookupA]
  | cons hd tl ih =>
    obtain ⟨m, w⟩ := hd
    by_cases hmn : m = n
    · subst hmn
      by_cases hms : m = s <;> simp [setA, lookupA, hms]
    · by_cases hms : m = s <;> by_cases hns : n = s <;>
        simp_all [setA, lookupA]

/-- A name with a binding occurs in the list of first components. -/
theorem mem_map_fst_of_lookupA {α : Type} (xs : List (String × α))
    (s : String) (h : (lookupA xs s).isSome = true) :
    s ∈ xs.map Prod.fst := by
  induction xs with
  | nil => simp [lookupA] at h
  | cons hd tl ih =>
    obtain ⟨m, w⟩ := hd
    by_cases hms : m = s
    · simp [hms]
    · simp only [lookupA, if_neg hms] at h
      simp [ih h]

/-- Writing a key into a missing section is a no-op (unreachable in the
parser, which creates sections before writing into them). -/
theorem setKV_of_none (secs : Sections) (sec key val : String)
    (h : lookupA secs sec = none) : setKV secs sec key val = secs := by
  simp [setKV, h]

/-- Writing a key into an existing section updates that section's map. -/
theorem lookupA_setKV_self (secs : Sections) (sec key val : String)
    (m : Items) (h : lookupA secs sec = some m) :
    lookupA (setKV secs sec key val) sec = some (setA m key val) := by
  simp [setKV, h, lookupA_setA]

/-- Writing a key into one section leaves other sections unchanged. -/
theorem lookupA_setKV_other (secs : Sections) (sec key val S : String)
    (hne : S ≠ sec) :
    lookupA (setKV secs sec key val) S = lookupA secs S := by
  unfold setKV
  cases h : lookupA secs sec with
  | none => rfl
  | some m => simp [lookupA_setA, Ne.symm hne]

/-!  Lemmas about the split model.  -/

/-- The split worker never produces an empty list of chunks. -/
theorem goSplitAux_ne_nil (sep : List Char) (fuel : Nat) (s : List Char) :
    goSplitAux sep fuel s ≠ [] := by
  match fuel, s with
  | 0, [] => simp [goSplitAux]
  | fuel + 1, [] => simp [goSplitAux]
  | 0, c :: rest => simp [goSplitAux]
  | fuel + 1, c :: rest =>
    simp only [goSplitAux]
    split
    · simp
    · split <;> simp

/-- With enough fuel, splitting on the equals sign yields one chunk more
than the number of equals signs. -/
theorem goSplitAux_eq_length (fuel : Nat) (s : List Char)
    (h : s.length ≤ fuel) :
    (goSplitAux ['='] fuel s).length = s.count '=' + 1 := by
  induction fuel generalizing s with
  | zero =>
    have hs : s = [] := List.eq_nil_of_length_eq_zero (Nat.le_zero.mp h)
    subst hs
    simp [goSplitAux]
  | succ fuel ih =>
    cases s with
    | nil => simp [goSplitAux]
    | cons c rest =>
      have hrest : rest.length ≤ fuel := by
        simpa using Nat.le_of_succ_le_succ h
      by_cases hc : c = '='
      · subst hc
        have hp : List.isPrefixOf ['='] ('=' :: rest) = true := by
          simp [List.isPrefixOf]
        simp only [goSplitAux, hp, if_true, List.length_cons,
          List.length_nil, List.drop_succ_cons, List.drop_zero]
        rw [ih rest hrest]
        simp [List.count_cons]
      · have hp : List.isPrefixOf ['='] (c :: rest) = false := by
          simp [List.isPrefixOf]
          exact fun hcontra => hc hcontra.symm
        obtain ⟨chunk, chunks, heq⟩ :=
          List.exists_cons_of_ne_nil (goSplitAux_ne_nil ['='] fuel rest)
        have hlen := ih rest hrest
        rw [heq] at hlen
        simp only [goSplitAux, hp, Bool.false_eq_true, if_false, heq]
        simp only [List.length_cons] at hlen ⊢
        rw [hlen]
        simp [List.count_cons, hc]

/-- Splitting a non-empty-separated string on the equals sign: chunk count
is the equals-sign count plus one. -/
theorem goSplitL_eq_length (s : List Char) :
    (goSplitL s ['=']).length = s.count '=' + 1 := by
  simp only [goSplitL]
  rw [if_neg (by simp)]
  exact goSplitAux_eq_length s.length s le_rfl

/-- The element-replacement loop of GetStringSlice is a pointwise map. -/
theorem setDefaults_eq_map (dflt : String) (l : List String) :
    setDefaults dflt l = l.map fun e => if e = "" then dflt else e := by
  induction l with
  | nil => rfl
  | cons x xs ih => simp [setDefaults, ih]

/-!  Behaviour of a single parser step.  -/

/-- A step that does not assign to (S, k) preserves the stored value at
(S, k): blank/comment lines and malformed lines change nothing, headers
never delete, and assignments only touch their own key in the current
section. -/
theorem stepL_preserves_lookupKV (st : String × Sections) (l : List Char)
    (S k v : String)
    (hna : (decide (st.1 = S) && isAssignL l &&
      decide (assignKeyL l = k)) = false)
    (hv : lookupKV st.2 S k = some v) :
    lookupKV (parseTrimmedStep st l).2 S k = some v := by
  obtain ⟨cur, secs⟩ := st
  simp only at hna hv ⊢
  cases l with
  | nil => simpa [parseTrimmedStep] using hv
  | cons c cs =>
    by_cases hcom : c = '#' ∨ c = ';'
    · simpa [parseTrimmedStep, hcom] using hv
    · by_cases hbr : c = '['
      · subst hbr
        by_cases hlast : ('[' :: cs).getLast? = some ']'
        · by_cases hex : (lookupA secs (⟨cs.dropLast⟩ : String)).isSome = true
          · simpa [parseTrimmedStep, hcom, hlast, hex] using hv
          · have hnone : lookupA secs (⟨cs.dropLast⟩ : String) = none :=
              Option.not_isSome_iff_eq_none.mp (by simpa using hex)
            by_cases hname : (⟨cs.dropLast⟩ : String) = S
            · rw [← hname] at hv
              simp [lookupKV, hnone] at hv
            · simp only [parseTrimmedStep, hcom, hlast, hex]
              simpa [lookupKV, lookupA_setA, hname] using hv
        · simpa [parseTrimmedStep, hcom, hlast] using hv
      · rcases hsp : goSplitL (c :: cs) ['='] with
          _ | ⟨p0, _ | ⟨p1, _ | ⟨p2, ps⟩⟩⟩
        · simpa [parseTrimmedStep, hcom, hbr, hsp] using hv
        · simpa [parseTrimmedStep, hcom, hbr, hsp] using hv
        · have hor : ¬(c = '#' ∨ c = ';' ∨ c = '[') := by tauto
          have hA : isAssignL (c :: cs) = true := by
            simp [isAssignL, hor, hsp]
          have hkey : assignKeyL (c :: cs) = (⟨goTrimL p0⟩ : String) := by
            simp [assignKeyL, hsp]
          have hna' : ¬(cur = S ∧ assignKeyL (c :: cs) = k) := by
            intro hcon
            simp [hcon.1, hcon.2, hA] at hna
          have hstep : parseTrimmedStep (cur, secs) (c :: cs) =
              (cur, setKV secs cur (⟨goTrimL p0⟩ : String)
                (⟨goTrimL p1⟩ : String)) := by
            simp [parseTrimmedStep, hcom, hbr, hsp]
          rw [hstep]
          by_cases hS : cur = S
          · subst hS
            have hk : ¬((⟨goTrimL p0⟩ : String) = k) := by
              intro hkk
              exact hna' ⟨rfl, by rw [hkey]; exact hkk⟩
            unfold lookupKV at hv
            cases hm : lookupA secs cur with
            | none => rw [hm] at hv; simp at hv
            | some m =>
              rw [hm] at hv
              show lookupKV (setKV secs cur _ _) cur k = some v
              simp only [lookupKV,
                lookupA_setKV_self secs cur _ _ m hm, lookupA_setA]
              rw [if_neg hk]
              simpa using hv
          · show lookupKV (setKV secs cur _ _) S k = some v
            simp only [lookupKV, lookupA_setKV_other secs cur _ _ S
              (fun h2 => hS h2.symm)]
            simpa [lookupKV] using hv
        · simpa [parseTrimmedStep, hcom, hbr, hsp] using hv

/-- Processing a valid assignment line writes its trimmed value under its
trimmed key into the current section (overwriting any earlier value). -/
theorem stepL_assign_writes (st : String × Sections) (l : List Char)
    (hcur : (lookupA st.2 st.1).isSome = true)
    (hA : isAssignL l = true) :
    lookupKV (parseTrimmedStep st l).2 st.1 (assignKeyL l) =
      some (assignValL l) := by
  obtain ⟨cur, secs⟩ := st
  simp only at hcur ⊢
  cases l with
  | nil => simp [isAssignL] at hA
  | cons c cs =>
    by_cases hor : c = '#' ∨ c = ';' ∨ c = '['
    · simp [isAssignL, hor] at hA
    · simp only [isAssignL, hor, if_false, decide_eq_true_eq] at hA
      have hcom : ¬(c = '#' ∨ c = ';') := by tauto
      have hbr : ¬(c = '[') := by tauto
      rcases hsp : goSplitL (c :: cs) ['='] with
        _ | ⟨p0, _ | ⟨p1, _ | ⟨p2, ps⟩⟩⟩
      · rw [hsp] at hA; simp at hA
      · rw [hsp] at hA; simp at hA
      · have hstep : parseTrimmedStep (cur, secs) (c :: cs) =
            (cur, setKV secs cur (⟨goTrimL p0⟩ : String)
              (⟨goTrimL p1⟩ : String)) := by
          simp [parseTrimmedStep, hcom, hbr, hsp]
        have hkey : assignKeyL (c :: cs) = (⟨goTrimL p0⟩ : String) := by
          simp [assignKeyL, hsp]
        have hval : assignValL (c :: cs) = (⟨goTrimL p1⟩ : String) := by
          simp [assignValL, hsp]
        obtain ⟨m, hm⟩ := Option.isSome_iff_exists.mp hcur
        rw [hstep, hkey, hval]
        show lookupKV (setKV secs cur _ _) cur _ = _
        simp [lookupKV, lookupA_setKV_self secs cur _ _ m hm, lookupA_setA]
      · rw [hsp] at hA; simp at hA

/-- One parser step never removes an existing key: the key still exists
afterwards (its value may have been overwritten). -/
theorem stepL_keyExists (st : String × Sections) (l : List Char)
    (S k : String) (h : (lookupKV st.2 S k).isSome = true) :
    (lookupKV (parseTrimmedStep st l).2 S k).isSome = true := by
  obtain ⟨cur, secs⟩ := st
  simp only at h ⊢
  obtain ⟨v, hv⟩ := Option.isSome_iff_exists.mp h
  cases l with
  | nil => simpa [parseTrimmedStep] using h
  | cons c cs =>
    by_cases hcom : c = '#' ∨ c = ';'
    · simpa [parseTrimmedStep, hcom] using h
    · by_cases hbr : c = '['
      · subst hbr
        by_cases hlast : ('[' :: cs).getLast? = some ']'
        · by_cases hex : (lookupA secs (⟨cs.dropLast⟩ : String)).isSome = true
          · simpa [parseTrimmedStep, hcom, hlast, hex] using h
          · have hnone : lookupA secs (⟨cs.dropLast⟩ : String) = none :=
              Option.not_isSome_iff_eq_none.mp (by simpa using hex)
            by_cases hname : (⟨cs.dropLast⟩ : String) = S
            · rw [← hname] at hv
              simp [lookupKV, hnone] at hv
            · simp only [parseTrimmedStep, hcom, hlast, hex]
              simpa [lookupKV, lookupA_setA, hname] using h
        · simpa [parseTrimmedStep, hcom, hlast] using h
      · rcases hsp : goSplitL (c :: cs) ['='] with
          _ | ⟨p0, _ | ⟨p1, _ | ⟨p2, ps⟩⟩⟩
        · simpa [parseTrimmedStep, hcom, hbr, hsp] using h
        · simpa [parseTrimmedStep, hcom, hbr, hsp] using h
        · have hstep : parseTrimmedStep (cur, secs) (c :: cs) =
              (cur, setKV secs cur (⟨goTrimL p0⟩ : String)
                (⟨goTrimL p1⟩ : String)) := by
            simp [parseTrimmedStep, hcom, hbr, hsp]
          rw [hstep]
          show (lookupKV (setKV secs cur _ _) S k).isSome = true
          by_cases hS : cur = S
          · subst hS
            unfold lookupKV at hv
            cases hm : lookupA secs cur with
            | none => rw [hm] at hv; simp at hv
            | some m =>
              rw [hm] at hv
              simp only [lookupKV,
                lookupA_setKV_self secs cur _ _ m hm, lookupA_setA]
              have hv2 : lookupA m k = some v := hv
              by_cases hkk : (⟨goTrimL p0⟩ : String) = k
              · simp [hkk]
              · simp only [if_neg hkk]
                simp [hv2]
          · simp only [lookupKV, lookupA_setKV_other secs cur _ _ S
              (fun h2 => hS h2.symm)]
            simpa [lookupKV] using h
        · simpa [parseTrimmedStep, hcom, hbr, hsp] using h

/-- One parser step never removes an existing section. -/
theorem stepL_secExists (st : String × Sections) (l : List Char)
    (S : String) (h : (lookupA st.2 S).isSome = true) :
    (lookupA (parseTrimmedStep st l).2 S).isSome = true := by
  obtain ⟨cur, secs⟩ := st
  simp only at h ⊢
  cases l with
  | nil => simpa [parseTrimmedStep] using h
  | cons c cs =>
    by_cases hcom : c = '#' ∨ c = ';'
    · simpa [parseTrimmedStep, hcom] using h
    · by_cases hbr : c = '['
      · subst hbr
        by_cases hlast : ('[' :: cs).getLast? = some ']'
        · by_cases hex : (lookupA secs (⟨cs.dropLast⟩ : String)).isSome = true
          · simpa [parseTrimmedStep, hcom, hlast, hex] using h
          · by_cases hname : (⟨cs.dropLast⟩ : String) = S <;>
              simp [parseTrimmedStep, hcom, hlast, hex, lookupA_setA,
                hname, h]
        · simpa [parseTrimmedStep, hcom, hlast] using h
      · rcases hsp : goSplitL (c :: cs) ['='] with
          _ | ⟨p0, _ | ⟨p1, _ | ⟨p2, ps⟩⟩⟩
        · simpa [parseTrimmedStep, hcom, hbr, hsp] using h
        · simpa [parseTrimmedStep, hcom, hbr, hsp] using h
        · have hstep : parseTrimmedStep (cur, secs) (c :: cs) =
              (cur, setKV secs cur (⟨goTrimL p0⟩ : String)
                (⟨goTrimL p1⟩ : String)) := by
            simp [parseTrimmedStep, hcom, hbr, hsp]
          rw [hstep]
          show (lookupA (setKV secs cur _ _) S).isSome = true
          cases hm : lookupA secs cur with
          | none => simpa [setKV, hm] using h
          | some m =>
            by_cases hS : cur = S
            · subst hS
              simp [lookupA_setKV_self secs cur _ _ m hm]
            · simpa [lookupA_setKV_other secs cur _ _ S
                (fun h2 => hS h2.symm)] using h
        · simpa [parseTrimmedStep, hcom, hbr, hsp] using h

/-- After any parser step the current section exists in the store,
provided it did before (headers create their section on switch). -/
theorem stepL_curExists (st : String × Sections) (l : List Char)
    (h : (lookupA st.2 st.1).isSome = true) :
    (lookupA (parseTrimmedStep st l).2
      (parseTrimmedStep st l).1).isSome = true := by
  obtain ⟨cur, secs⟩ := st
  simp only at h ⊢
  cases l with
  | nil => simpa [parseTrimmedStep] using h
  | cons c cs =>
    by_cases hcom : c = '#' ∨ c = ';'
    · simpa [parseTrimmedStep, hcom] using h
    · by_cases hbr : c = '['
      · subst hbr
        by_cases hlast : ('[' :: cs).getLast? = some ']'
        · by_cases hex : (lookupA secs (⟨cs.dropLast⟩ : String)).isSome = true
          · simp [parseTrimmedStep, hcom, hlast, hex]
          · simp [parseTrimmedStep, hcom, hlast, hex, lookupA_setA]
        · simpa [parseTrimmedStep, hcom, hlast] using h
      · rcases hsp : goSplitL (c :: cs) ['='] with
          _ | ⟨p0, _ | ⟨p1, _ | ⟨p2, ps⟩⟩⟩
        · simpa [parseTrimmedStep, hcom, hbr, hsp] using h
        · simpa [parseTrimmedStep, hcom, hbr, hsp] using h
        · have hstep : parseTrimmedStep (cur, secs) (c :: cs) =
              (cur, setKV secs cur (⟨goTrimL p0⟩ : String)
                (⟨goTrimL p1⟩ : String)) := by
            simp [parseTrimmedStep, hcom, hbr, hsp]
          rw [hstep]
          obtain ⟨m, hm⟩ := Option.isSome_iff_exists.mp h
          show (lookupA (setKV secs cur _ _) cur).isSome = true
          simp [lookupA_setKV_self secs cur _ _ m hm]
        · simpa [parseTrimmedStep, hcom, hbr, hsp] using h

/-- A well-formed header whose section already exists only switches the
current section; the store is untouched (reopened, not cleared). -/
theorem stepL_header_existing (st : String × Sections) (l : List Char)
    (hH : isHeaderL l = true)
    (hex : (lookupA st.2 (headerNameL l)).isSome = true) :
    parseTrimmedStep st l = (headerNameL l, st.2) := by
  obtain ⟨cur, secs⟩ := st
  cases l with
  | nil => simp [isHeaderL] at hH
  | cons c cs =>
    simp only [isHeaderL, Bool.and_eq_true, decide_eq_true_eq] at hH
    obtain ⟨hc, hlast⟩ := hH
    subst hc
    simp only [headerNameL] at hex ⊢
    have hcom : ¬(('[' : Char) = '#' ∨ ('[' : Char) = ';') := by decide
    simp [parseTrimmedStep, hcom, hlast, hex]

/-- A malformed key=value candidate (no equals sign, or several) leaves
the parser state unchanged. -/
theorem stepL_malformed (st : String × Sections) (c : Char) (cs : List Char)
    (hor : ¬(c = '#' ∨ c = ';' ∨ c = '['))
    (hcount : (c :: cs).count '=' ≠ 1) :
    parseTrimmedStep st (c :: cs) = st := by
  have hcom : ¬(c = '#' ∨ c = ';') := by tauto
  have hbr : ¬(c = '[') := by tauto
  have hlen : (goSplitL (c :: cs) ['=']).length ≠ 2 := by
    rw [goSplitL_eq_length]
    omega
  rcases hsp : goSplitL (c :: cs) ['='] with
    _ | ⟨p0, _ | ⟨p1, _ | ⟨p2, ps⟩⟩⟩
  · simp [parseTrimmedStep, hcom, hbr, hsp]
  · simp [parseTrimmedStep, hcom, hbr, hsp]
  · rw [hsp] at hlen; simp at hlen
  · simp [parseTrimmedStep, hcom, hbr, hsp]

/-!  The same facts lifted to raw lines and folds over line lists.  -/

/-- Raw-line version of `stepL_preserves_lookupKV`. -/
theorem step_preserves_lookupKV (st : String × Sections) (raw S k v : String)
    (hna : assignsTo st raw S k = false)
    (hv : lookupKV st.2 S k = some v) :
    lookupKV (parseLineStep st raw).2 S k = some v :=
  stepL_preserves_lookupKV st (goTrimL raw.data) S k v hna hv

/-- Raw-line version of `stepL_keyExists`. -/
theorem step_keyExists (st : String × Sections) (raw S k : String)
    (h : (lookupKV st.2 S k).isSome = true) :
    (lookupKV (parseLineStep st raw).2 S k).isSome = true :=
  stepL_keyExists st (goTrimL raw.data) S k h

/-- Raw-line version of `stepL_malformed`. -/
theorem step_malformed (st : String × Sections) (raw : String)
    (hm : malformedKV raw = true) : parseLineStep st raw = st := by
  unfold parseLineStep
  unfold malformedKV at hm
  cases hl : goTrimL raw.data with
  | nil => rw [hl] at hm; simp at hm
  | cons c cs =>
    rw [hl] at hm
    by_cases hor : c = '#' ∨ c = ';' ∨ c = '['
    · rcases hor with h1 | h1 | h1 <;> simp [h1] at hm
    · have hcom : ¬(c = '#' ∨ c = ';') := by tauto
      have hbr : ¬(c = '[') := by tauto
      have hcom3 : ¬(c = '#') := by tauto
      have hsemi : ¬(c = ';') := by tauto
      simp only [hcom3, hsemi, hbr, if_false, or_self, or_false,
        false_or, decide_eq_true_eq] at hm
      exact stepL_malformed st c cs hor (by simpa using hm)

/-- Raw-line version of `stepL_assign_writes`. -/
theorem step_assign_writes (st : String × Sections) (raw : String)
    (hcur : (lookupA st.2 st.1).isSome = true)
    (hA : isAssignLine raw = true) :
    lookupKV (parseLineStep st raw).2 st.1 (assignKey raw) =
      some (assignVal raw) :=
  stepL_assign_writes st (goTrimL raw.data) hcur hA

/-- Folding lines with no later assignment to (S, k) preserves the value
stored at (S, k). -/
theorem foldl_preserves_lookupKV (ls : List String)
    (st : String × Sections) (S k v : String)
    (hno : noLaterAssign st ls S k = true)
    (hv : lookupKV st.2 S k = some v) :
    lookupKV ((ls.foldl parseLineStep st)).2 S k = some v := by
  induction ls generalizing st with
  | nil => simpa using hv
  | cons l ls ih =>
    simp only [noLaterAssign, Bool.and_eq_true, Bool.not_eq_true'] at hno
    simp only [List.foldl_cons]
    exact ih (parseLineStep st l) hno.2
      (step_preserves_lookupKV st l S k v hno.1 hv)

/-- Folding any lines preserves key existence. -/
theorem foldl_keyExists (ls : List String) (st : String × Sections)
    (S k : String) (h : (lookupKV st.2 S k).isSome = true) :
    (lookupKV ((ls.foldl parseLineStep st)).2 S k).isSome = true := by
  induction ls generalizing st with
  | nil => simpa using h
  | cons l ls ih =>
    simp only [List.foldl_cons]
    exact ih (parseLineStep st l) (step_keyExists st l S k h)

/-- Folding any lines preserves section existence. -/
theorem foldl_secExists (ls : List String) (st : String × Sections)
    (S : String) (h : (lookupA st.2 S).isSome = true) :
    (lookupA ((ls.foldl parseLineStep st)).2 S).isSome = true := by
  induction ls generalizing st with
  | nil => simpa using h
  | cons l ls ih =>
    simp only [List.foldl_cons]
    exact ih (parseLineStep st l)
      (stepL_secExists st (goTrimL l.data) S h)

/-- Folding any lines keeps the invariant that the current section exists
in the store. -/
theorem foldl_curExists (ls : List String) (st : String × Sections)
    (h : (lookupA st.2 st.1).isSome = true) :
    (lookupA ((ls.foldl parseLineStep st)).2
      ((ls.foldl parseLineStep st)).1).isSome = true := by
  induction ls generalizing st with
  | nil => simpa using h
  | cons l ls ih =>
    simp only [List.foldl_cons]
    exact ih (parseLineStep st l)
      (stepL_curExists st (goTrimL l.data) h)

/-- The initial parse state carries the empty-named section. -/
theorem parseInit_curExists : (lookupA parseInit.2 parseInit.1).isSome = true := by
  simp [parseInit, setA, lookupA]

/-- In every intermediate parse state the current section exists. -/
theorem stateAt_curExists (ls : List String) (j : Nat) :
    (lookupA (stateAt ls j).2 (stateAt ls j).1).isSome = true :=
  foldl_curExists _ _ parseInit_curExists

/-- The Store after LoadFromBytes is the parse of the scanner's lines. -/
theorem loadFromBytes_sections (i : Ini) (T : String) :
    (LoadFromBytes i T).sections = parseOf (goLines T) := rfl

/-- Splitting the fold at line `j`: parse the prefix, the line itself,
then the remaining lines. -/
theorem foldl_decompose (ls : List String) (j : Nat) (hj : j < ls.length) :
    ls.foldl parseLineStep parseInit =
      (ls.drop (j + 1)).foldl parseLineStep
        (parseLineStep (stateAt ls j) (ls.get ⟨j, hj⟩)) := by
  conv_lhs => rw [← List.take_append_drop j ls]
  rw [List.foldl_append, List.drop_eq_getElem_cons hj]
  simp only [stateAt, List.foldl_cons, List.get_eq_getElem]

/-- Bound for values accepted by the signed 32-bit range check of the
integer parse model. -/
theorem int32Range_bound (neg : Bool) (u : Nat) (v : Int)
    (h : int32Range neg u = some v) :
    -(2 ^ 31) ≤ v ∧ v < 2 ^ 31 := by
  have h31n : (2 : Nat) ^ 31 = 2147483648 := by norm_num
  have h31i : (2 : Int) ^ 31 = 2147483648 := by norm_num
  unfold int32Range at h
  rw [h31i]
  rw [h31n] at h
  cases neg with
  | false =>
    simp only [Bool.false_eq_true, if_false] at h
    by_cases hc : 2147483648 ≤ u
    · simp [hc] at h
    · simp only [hc, if_false] at h
      have hv : (u : Int) = v := by simpa using h
      omega
  | true =>
    simp only [if_true] at h
    by_cases hc : 2147483648 < u
    · simp [hc] at h
    · simp only [hc, if_false] at h
      have hv : -(u : Int) = v := by simpa using h
      omega

/-!  The claims.  -/

/-- C1 counterexample: the claim fails as stated, because a later
assignment to the same key overwrites the earlier one.  In the input, the
first line is a valid assignment line under the empty section with
trimmed key a and trimmed value 1, yet GetString returns 2. -/
theorem c1_counterexample :
    (goLines "a=1\na=2").getD 0 "" = "a=1" ∧
    isAssignLine "a=1" = true ∧
    (stateAt (goLines "a=1\na=2") 0).1 = "" ∧
    assignKey "a=1" = "a" ∧
    assignVal "a=1" = "1" ∧
    GetString (LoadFromBytes NewIni "a=1\na=2") "" "a" "" = "2" ∧
    ("2" : String) ≠ "1" := by decide

/-- C1 (amended): for every input and every valid assignment line
processed while section S is current, if no later line assigns to the
same (S, trimmed key), then after LoadFromBytes, GetString with the empty
default returns the line's whitespace-trimmed value. -/
theorem c1_assignment_retrievable (i : Ini) (T : String) (j : Nat)
    (S k : String) (hj : j < (goLines T).length)
    (hS : (stateAt (goLines T) j).1 = S)
    (hA : isAssignLine ((goLines T).get ⟨j, hj⟩) = true)
    (hk : assignKey ((goLines T).get ⟨j, hj⟩) = k)
    (hlater : noLaterAssign
      (parseLineStep (stateAt (goLines T) j) ((goLines T).get ⟨j, hj⟩))
      ((goLines T).drop (j + 1)) S k = true) :
    GetString (LoadFromBytes i T) S k "" =
      assignVal ((goLines T).get ⟨j, hj⟩) := by
  have hcur : (lookupA (stateAt (goLines T) j).2
      (stateAt (goLines T) j).1).isSome = true :=
    stateAt_curExists (goLines T) j
  have hwrite := step_assign_writes (stateAt (goLines T) j)
    ((goLines T).get ⟨j, hj⟩) hcur hA
  rw [hS, hk] at hwrite
  have hfinal : lookupKV (((goLines T).foldl parseLineStep parseInit)).2
      S k = some (assignVal ((goLines T).get ⟨j, hj⟩)) := by
    rw [foldl_decompose (goLines T) j hj]
    exact foldl_preserves_lookupKV _ _ _ _ _ hlater hwrite
  have hget : getString (LoadFromBytes i T) S k =
      assignVal ((goLines T).get ⟨j, hj⟩) := by
    unfold getString
    rw [loadFromBytes_sections]
    unfold parseOf
    rw [hfinal]
  simp only [GetString, hget]
  by_cases hv : assignVal ((goLines T).get ⟨j, hj⟩) = ""
  · rw [hv]
    simp
  · rw [if_neg hv]

/-- Witness for the amended C1 on a concrete input: the key is stored
under the bracketed section and both key and value are trimmed. -/
theorem c1_assignment_retrievable_witness :
    GetString (LoadFromBytes NewIni "[s]\n a = hello \nother=1") "s" "a" ""
      = "hello" := by
  have h := c1_assignment_retrievable NewIni "[s]\n a = hello \nother=1"
    1 "s" "a" (by decide) (by decide) (by decide) (by decide) (by decide)
  rw [h]
  decide

/-- C2: a line whose trimmed form is not blank, not a comment, not a
section header, and has zero or more than one equals sign contributes no
entry: the loaded Store equals the parse of the lines with that line
deleted. -/
theorem c2_malformed_no_entry (i : Ini) (T : String) (j : Nat)
    (hj : j < (goLines T).length)
    (hm : malformedKV ((goLines T).get ⟨j, hj⟩) = true) :
    (LoadFromBytes i T).sections = parseOf ((goLines T).eraseIdx j) := by
  rw [loadFromBytes_sections]
  unfold parseOf
  rw [List.eraseIdx_eq_take_drop_succ, List.foldl_append]
  rw [foldl_decompose (goLines T) j hj]
  rw [step_malformed _ _ hm]
  rfl

/-- Witness for C2: deleting the equals-free line does not change the
parse result. -/
theorem c2_malformed_no_entry_witness :
    (LoadFromBytes NewIni "a=1\nbad line\nb=2").sections =
      parseOf ["a=1", "b=2"] := by
  have h := c2_malformed_no_entry NewIni "a=1\nbad line\nb=2" 1
    (by decide) (by decide)
  rw [h]
  decide

/-- C3: loading buffer B after buffer A leaves the Store identical to
loading B into a fresh instance; nothing of A survives, because
LoadFromBytes clears the sections map before parsing. -/
theorem c3_load_replaces (i : Ini) (A B : String) :
    (LoadFromBytes (LoadFromBytes i A) B).sections =
      (LoadFromBytes NewIni B).sections := rfl

/-- C4: after any LoadFromBytes (any buffer, including the empty one) the
empty-named section exists and appears in the section enumeration. -/
theorem c4_empty_section (i : Ini) (T : String) :
    SectionExists (LoadFromBytes i T) "" = true ∧
    "" ∈ GetSectionValues (LoadFromBytes i T) := by
  have hsec : (lookupA (LoadFromBytes i T).sections "").isSome = true := by
    rw [loadFromBytes_sections]
    unfold parseOf
    exact foldl_secExists _ _ _ (by simp [parseInit, setA, lookupA])
  exact ⟨hsec, mem_map_fst_of_lookupA _ _ hsec⟩

/-- C5: a repeated section header reopens the section instead of clearing
it: a header naming an existing section leaves the whole store untouched,
keys existing at any point in the parse survive all remaining lines, and
an assignment to an existing (section, key) pair overwrites its value. -/
theorem c5_reopen_overwrite :
    (∀ (st : String × Sections) (raw : String),
      isHeaderLine raw = true →
      (lookupA st.2 (headerName raw)).isSome = true →
      parseLineStep st raw = (headerName raw, st.2)) ∧
    (∀ (st : String × Sections) (ls : List String) (S k : String),
      (lookupKV st.2 S k).isSome = true →
      (lookupKV ((ls.foldl parseLineStep st)).2 S k).isSome = true) ∧
    (∀ (st : String × Sections) (raw S k : String),
      (lookupA st.2 st.1).isSome = true →
      assignsTo st raw S k = true →
      lookupKV (parseLineStep st raw).2 S k = some (assignVal raw)) := by
  refine ⟨?_, ?_, ?_⟩
  · intro st raw hH hex
    exact stepL_header_existing st (goTrimL raw.data) hH hex
  · intro st ls S k h
    exact foldl_keyExists ls st S k h
  · intro st raw S k hcur ha
    simp only [assignsTo, Bool.and_eq_true, decide_eq_true_eq] at ha
    obtain ⟨⟨h1, h2⟩, h3⟩ := ha
    have hw := step_assign_writes st raw hcur h2
    rw [h1, h3] at hw
    exact hw

/-- Witness for C5: reopening an existing section, survival of an
earlier key under later lines including a repeated header, and a later
assignment overwriting the stored value. -/
theorem c5_reopen_overwrite_witness :
    parseLineStep ("s", [("", []), ("s", [("a", "1")])]) "[s]" =
      ("s", [("", []), ("s", [("a", "1")])]) ∧
    (lookupKV ((["[s]", "b=2"].foldl parseLineStep
      ("s", [("", []), ("s", [("a", "1")])]))).2 "s" "a").isSome = true ∧
    lookupKV (parseLineStep ("s", [("", []), ("s", [("a", "1")])])
      " a = 3 ").2 "s" "a" = some "3" := by
  refine ⟨?_, ?_, ?_⟩
  · exact (c5_reopen_overwrite.1 ("s", [("", []), ("s", [("a", "1")])])
      "[s]" (by decide) (by decide)).trans (by decide)
  · exact c5_reopen_overwrite.2.1 ("s", [("", []), ("s", [("a", "1")])])
      ["[s]", "b=2"] "s" "a" (by decide)
  · exact (c5_reopen_overwrite.2.2 ("s", [("", []), ("s", [("a", "1")])])
      " a = 3 " "s" "a" (by decide) (by decide)).trans (by decide)

/-- C6: behaviour of GetFloat at the failing input.  The source passes
bitSize 10 to strconv.ParseFloat, so the parse runs at 64-bit range, the
float32-overflowing value 1e39 parses without error, and GetFloat
returns it instead of the caller's default 5/2 — while the intended
32-bit parse (bitSize 32) rejects the same string. -/
theorem c6_get_float_bug :
    GetFloat (LoadFromBytes NewIni "[gui]\nscale=1e39") "gui" "scale"
      (5 / 2) = DecLit.toRat ⟨false, 1, 39⟩ ∧
    DecLit.toRat ⟨false, 1, 39⟩ ≠ 5 / 2 ∧
    goParseFloat "1e39" 32 = none ∧
    goParseFloat "1e39" 10 = some ⟨false, 1, 39⟩ := by
  refine ⟨?_, ?_, by decide, by decide⟩
  · have h : goParseFloat (getString (LoadFromBytes NewIni
        "[gui]\nscale=1e39") "gui" "scale") 10 = some ⟨false, 1, 39⟩ := by
      decide
    simp [GetFloat, h]
  · have h39 : Int.toNat 39 = 39 := rfl
    norm_num [DecLit.toRat, h39]

/-- C7: GetStringSlice splits the resolved raw string on the separator;
with an empty separator or an empty split result the split is returned
unmodified, otherwise exactly the empty elements are replaced by the
caller's default and all other elements are unchanged. -/
theorem c7_get_string_slice (i : Ini) (sec key d sep : String) :
    ((sep = "" ∨ goSplit (getString i sec key) sep = []) →
      GetStringSlice i sec key d sep = goSplit (getString i sec key) sep) ∧
    (sep ≠ "" → goSplit (getString i sec key) sep ≠ [] →
      GetStringSlice i sec key d sep =
        (goSplit (getString i sec key) sep).map
          fun e => if e = "" then d else e) := by
  constructor
  · intro h
    unfold GetStringSlice
    rcases h with h | h
    · simp [h]
    · simp [h]
  · intro hsep hne
    have hcond : ¬(sep = "" ∨
        (goSplit (getString i sec key) sep).length = 0) := by
      push_neg
      exact ⟨hsep, by simpa [List.length_eq_zero] using hne⟩
    unfold GetStringSlice
    rw [if_neg hcond]
    exact setDefaults_eq_map d _

/-- Witness for C7: element substitution on a comma split, and the
unmodified return for the empty separator. -/
theorem c7_get_string_slice_witness :
    GetStringSlice (LoadFromBytes NewIni "k=a,,c") "" "k" "NULL" "," =
      ["a", "NULL", "c"] ∧
    GetStringSlice (LoadFromBytes NewIni "k=a,,c") "" "k" "NULL" "" =
      goSplit (getString (LoadFromBytes NewIni "k=a,,c") "" "k") "" := by
  constructor
  · have h := (c7_get_string_slice (LoadFromBytes NewIni "k=a,,c") "" "k"
      "NULL" ",").2 (by decide) (by decide)
    rw [h]
    decide
  · exact (c7_get_string_slice (LoadFromBytes NewIni "k=a,,c") "" "k"
      "NULL" "").1 (Or.inl rfl)

/-- C8: GetInt resolves the raw string and parses it with base deduction
(0x/0X hexadecimal, leading-0 octal, otherwise decimal, per ParseInt with
base 0) in the signed 32-bit range: the empty string fails, every parsed
value is a signed 32-bit value, failure yields the caller's default,
success yields the parsed value, and the spec's hex example holds. -/
theorem c8_get_int :
    goParseInt "" = none ∧
    (∀ (s : String) (v : Int), goParseInt s = some v →
      -(2 ^ 31) ≤ v ∧ v < 2 ^ 31) ∧
    (∀ (i : Ini) (sec key : String) (d : Int),
      goParseInt (getString i sec key) = none → GetInt i sec key d = d) ∧
    (∀ (i : Ini) (sec key : String) (d v : Int),
      goParseInt (getString i sec key) = some v → GetInt i sec key d = v) ∧
    GetInt (LoadFromBytes NewIni "[theme]\naccent color= 0xff00ff")
      "theme" "accent color" 1000 = 16711935 := by
  refine ⟨rfl, ?_, ?_, ?_, by decide⟩
  · intro s v hv
    unfold goParseInt at hv
    cases hs : s.data with
    | nil => rw [hs] at hv; simp at hv
    | cons c rest =>
      rw [hs] at hv
      have hv2 : goParseIntFinish
          (if c = '+' then (false, rest)
            else if c = '-' then (true, rest)
            else (false, c :: rest)) = some v := hv
      unfold goParseIntFinish at hv2
      cases hu : goParseUintBase0
          (if c = '+' then (false, rest)
            else if c = '-' then (true, rest)
            else (false, c :: rest)).2 with
      | none => rw [hu] at hv2; simp at hv2
      | some u =>
        rw [hu] at hv2
        exact int32Range_bound _ u v hv2
  · intro i sec key d h
    unfold GetInt
    rw [h]
  · intro i sec key d v h
    unfold GetInt
    rw [h]

/-- Witness for C8: the range bound at a parsed value, the success case,
and the failure-to-default case, all at concrete inputs. -/
theorem c8_get_int_witness :
    (-(2 ^ 31) ≤ (123 : Int) ∧ (123 : Int) < 2 ^ 31) ∧
    GetInt (LoadFromBytes NewIni "x=5") "" "x" 7 = 5 ∧
    GetInt (LoadFromBytes NewIni "x=oops") "" "x" 7 = 7 := by
  refine ⟨c8_get_int.2.1 "123" 123 (by decide), ?_, ?_⟩
  · exact c8_get_int.2.2.2.1 (LoadFromBytes NewIni "x=5") "" "x" 7 5
      (by decide)
  · exact c8_get_int.2.2.1 (LoadFromBytes NewIni "x=oops") "" "x" 7
      (by decide)

/-- C9: when the file read fails, LoadFromFile returns the error and the
struct — in particular the Store — is exactly as before the call (clear
and reparse happen only after a successful read). -/
theorem c9_load_file_error (i : Ini) (e : String) :
    (LoadFromFile i (Except.error e)).1 = i ∧
    (LoadFromFile i (Except.error e)).2 = some e :=
  ⟨rfl, rfl⟩

/-- C10: a fresh instance has no sections at all (not even the empty
one), enumerates no section names, KeyExists is false everywhere, and
every typed scalar getter degrades to the caller's default — the lookup
itself never fails. -/
theorem c10_fresh_instance :
    SectionExists NewIni "" = false ∧
    GetSectionValues NewIni = [] ∧
    (∀ s k : String, KeyExists NewIni s k = false) ∧
    (∀ (s k : String) (d : Int), GetInt NewIni s k d = d) ∧
    (∀ (s k : String) (d : Nat), GetUint NewIni s k d = d) ∧
    (∀ (s k : String) (d : ℚ), GetFloat NewIni s k d = d) ∧
    (∀ (s k : String) (d : Bool), GetBool NewIni s k d = d) ∧
    (∀ s k d : String, GetString NewIni s k d = d) :=
  ⟨rfl, rfl, fun _ _ => rfl, fun _ _ _ => rfl, fun _ _ _ => rfl,
    fun _ _ _ => rfl, fun _ _ _ => rfl, fun _ _ _ => rfl⟩

end Goini
